import Mathlib

/-!
Shallow embedding of `gtsam/hybrid/HybridFactor.h` (the hybrid factor base
class of GTSAM): the `GraphAndConstant` annotated linear subproblem, the
key-collection utilities, and the `HybridFactor` classification flags,
key sets and serializable state.

Machine doubles are modelled as exact rationals (`ℚ`); `fabs` is `|·|`.
A `GaussianFactor` is modelled as an object identity (standing for the
`shared_ptr` address) together with its numeric contents, so that pointer
equality (`operator==`, which the header comments call "Check pointer
equality") and tolerance-based structural equality (`equals`) are distinct
relations, exactly as in the source.
-/

namespace GtsamHybrid

/-- `gtsam::Key`: an opaque variable identifier. -/
abbrev Key := Nat

/-- `gtsam::KeyVector`: an ordered sequence of keys. -/
abbrev KeyVector := List Key

/-- `gtsam::DiscreteKey`: identifier plus finite cardinality. -/
abbrev DiscreteKey := Key × Nat

/-- `gtsam::DiscreteKeys`: an ordered sequence of discrete keys. -/
abbrev DiscreteKeys := List DiscreteKey

/-- A Gaussian factor: an object identity (the shared-pointer address) plus
its numeric contents.  Two distinct heap objects may hold equal contents;
the same object trivially holds its own contents, so pointer equality is
modelled as equality of the whole pair. -/
structure GaussianFactor where
  fid : Nat
  data : List ℚ
deriving DecidableEq

/-- `gtsam::GaussianFactorGraph`: a sequence of Gaussian factors (the
`FactorGraph` container holds a vector of shared pointers). -/
abbrev GaussianFactorGraph := List GaussianFactor

/-- Tolerance-based equality of two coefficient lists: same length and
corresponding entries within `tol` of each other. -/
def dataEquals : List ℚ → List ℚ → ℚ → Bool
  | [], [], _ => true
  | a :: as, b :: bs, tol => decide (|a - b| ≤ tol) && dataEquals as bs tol
  | _, _, _ => false

/-- Modelled from the spec: `GaussianFactorGraph::equals` is not part of the
embedded file; the spec describes it as the linear-factor-graph component's
tolerance-based structural equality, so it is modelled as: same number of
factors and corresponding factors' numeric contents within `tol`
(object identities are irrelevant to structural equality). -/
def GaussianFactorGraph.equals : GaussianFactorGraph → GaussianFactorGraph → ℚ → Bool
  | [], [], _ => true
  | f :: fs, g :: gs, tol => dataEquals f.data g.data tol && GaussianFactorGraph.equals fs gs tol
  | _, _, _ => false

/-- `GraphAndConstant`: a Gaussian factor graph together with the log of a
normalizing constant (HybridFactor.h lines 34-58). -/
structure GraphAndConstant where
  graph : GaussianFactorGraph
  constant : ℚ
deriving DecidableEq

/-- `GraphAndConstant::operator==` (HybridFactor.h lines 42-44):
`graph == other.graph && constant == other.constant`, where `==` on the
graph is element-wise shared-pointer equality. -/
def GraphAndConstant.eq (x y : GraphAndConstant) : Bool :=
  decide (x.graph = y.graph) && decide (x.constant = y.constant)

/-- `GraphAndConstant::equals` (HybridFactor.h lines 54-57):
`graph.equals(other.graph, tol) && fabs(constant - other.constant) < tol`.
Note the strict `<` on the constant. -/
def GraphAndConstant.equals (x y : GraphAndConstant) (tol : ℚ) : Bool :=
  GaussianFactorGraph.equals x.graph y.graph tol && decide (|x.constant - y.constant| < tol)

/-- The default tolerance of `GraphAndConstant::equals` is `1e-9`. -/
def GraphAndConstant.equalsDefault (x y : GraphAndConstant) : Bool :=
  GraphAndConstant.equals x y (1 / 1000000000)

section GraphEqualsLemmas

lemma dataEquals_self (l : List ℚ) (tol : ℚ) (h : 0 ≤ tol) : dataEquals l l tol = true := by
  induction l with
  | nil => rfl
  | cons a as ih =>
      simp only [dataEquals, Bool.and_eq_true, decide_eq_true_iff]
      exact ⟨by simpa using h, ih⟩

lemma graphEquals_self (g : GaussianFactorGraph) (tol : ℚ) (h : 0 ≤ tol) :
    GaussianFactorGraph.equals g g tol = true := by
  induction g with
  | nil => rfl
  | cons f fs ih =>
      simp only [GaussianFactorGraph.equals, Bool.and_eq_true]
      exact ⟨dataEquals_self f.data tol h, ih⟩

lemma dataEquals_symm (l m : List ℚ) (tol : ℚ) : dataEquals l m tol = dataEquals m l tol := by
  induction l generalizing m with
  | nil => cases m <;> rfl
  | cons a as ih =>
      cases m with
      | nil => rfl
      | cons b bs =>
          simp only [dataEquals, abs_sub_comm a b, ih bs]

lemma graphEquals_symm (g h : GaussianFactorGraph) (tol : ℚ) :
    GaussianFactorGraph.equals g h tol = GaussianFactorGraph.equals h g tol := by
  induction g generalizing h with
  | nil => cases h <;> rfl
  | cons f fs ih =>
      cases h with
      | nil => rfl
      | cons f' hs =>
          simp only [GaussianFactorGraph.equals, dataEquals_symm f.data f'.data, ih hs]

lemma dataEquals_mono (l m : List ℚ) (tol tol' : ℚ) (hle : tol ≤ tol')
    (h : dataEquals l m tol = true) : dataEquals l m tol' = true := by
  induction l generalizing m with
  | nil => cases m with
    | nil => rfl
    | cons b bs => simp [dataEquals] at h
  | cons a as ih =>
      cases m with
      | nil => simp [dataEquals] at h
      | cons b bs =>
          simp only [dataEquals, Bool.and_eq_true, decide_eq_true_iff] at h ⊢
          exact ⟨le_trans h.1 hle, ih bs h.2⟩

lemma graphEquals_mono (g h : GaussianFactorGraph) (tol tol' : ℚ) (hle : tol ≤ tol')
    (he : GaussianFactorGraph.equals g h tol = true) :
    GaussianFactorGraph.equals g h tol' = true := by
  induction g generalizing h with
  | nil => cases h with
    | nil => rfl
    | cons f hs => simp [GaussianFactorGraph.equals] at he
  | cons f fs ih =>
      cases h with
      | nil => simp [GaussianFactorGraph.equals] at he
      | cons f' hs =>
          simp only [GaussianFactorGraph.equals, Bool.and_eq_true] at he ⊢
          exact ⟨dataEquals_mono _ _ _ _ hle he.1, ih hs he.2⟩

end GraphEqualsLemmas

/-- Helper: first-occurrence deduplication by a key projection — keeps the
first element bearing each key value, in first-occurrence order. -/
def dedupFirstBy {α : Type} (key : α → Nat) : List α → List α
  | [] => []
  | k :: rest => k :: dedupFirstBy key (rest.filter (fun x => key x != key k))
termination_by l => l.length
decreasing_by
  simp only [List.length_cons]
  exact Nat.lt_succ_of_le (List.length_filter_le _ _)

section DedupLemmas

lemma dedupFirstBy_sublist {α : Type} (key : α → Nat) (l : List α) :
    (dedupFirstBy key l).Sublist l := by
  induction l using dedupFirstBy.induct key with
  | case1 => simp [dedupFirstBy]
  | case2 k rest ih =>
      rw [dedupFirstBy]
      exact List.Sublist.cons₂ k (ih.trans (List.filter_sublist rest))

lemma mem_map_key_dedupFirstBy {α : Type} (key : α → Nat) (l : List α) (kid : Nat) :
    kid ∈ (dedupFirstBy key l).map key ↔ kid ∈ l.map key := by
  induction l using dedupFirstBy.induct key with
  | case1 => simp [dedupFirstBy]
  | case2 k rest ih =>
      rw [dedupFirstBy]
      simp only [List.map_cons, List.mem_cons, ih, List.mem_map, List.mem_filter,
        bne_iff_ne, ne_eq]
      constructor
      · rintro (rfl | ⟨x, ⟨hx, _⟩, rfl⟩)
        · exact Or.inl rfl
        · exact Or.inr ⟨x, hx, rfl⟩
      · rintro (rfl | ⟨x, hx, rfl⟩)
        · exact Or.inl rfl
        · by_cases hk : key x = key k
          · exact Or.inl hk
          · exact Or.inr ⟨x, ⟨hx, hk⟩, rfl⟩

lemma nodup_map_key_dedupFirstBy {α : Type} (key : α → Nat) (l : List α) :
    ((dedupFirstBy key l).map key).Nodup := by
  induction l using dedupFirstBy.induct key with
  | case1 => simp [dedupFirstBy]
  | case2 k rest ih =>
      rw [dedupFirstBy]
      simp only [List.map_cons, List.nodup_cons]
      refine ⟨fun hmem => ?_, ih⟩
      rw [mem_map_key_dedupFirstBy] at hmem
      simp only [List.mem_map, List.mem_filter, bne_iff_ne, ne_eq] at hmem
      obtain ⟨x, ⟨_, hne⟩, hx⟩ := hmem
      exact hne hx

lemma dedupFirstBy_eq_self {α : Type} (key : α → Nat) (l : List α) :
    (l.map key).Nodup → dedupFirstBy key l = l := by
  induction l using dedupFirstBy.induct key with
  | case1 => intro _; simp [dedupFirstBy]
  | case2 k rest ih =>
      intro h
      simp only [List.map_cons, List.nodup_cons] at h
      have hfilter : rest.filter (fun x => key x != key k) = rest := by
        apply List.filter_eq_self.2
        intro x hx
        simp only [bne_iff_ne, ne_eq]
        intro hkey
        exact h.1 (hkey ▸ List.mem_map_of_mem key hx)
      rw [hfilter] at ih
      rw [dedupFirstBy, hfilter, ih h.2]

lemma dedupFirstBy_append {α : Type} (key : α → Nat) (a : List α) :
    ∀ b : List α, (a.map key).Nodup →
      dedupFirstBy key (a ++ b) =
        a ++ dedupFirstBy key (b.filter (fun x => decide (key x ∉ a.map key))) := by
  induction a with
  | nil =>
      intro b _
      simp
  | cons p a' ih =>
      intro b ha
      simp only [List.map_cons, List.nodup_cons] at ha
      have hg : (a' ++ b).filter (fun x => key x != key p) =
          a' ++ b.filter (fun x => key x != key p) := by
        rw [List.filter_append]
        congr 1
        apply List.filter_eq_self.2
        intro x hx
        simp only [bne_iff_ne, ne_eq]
        intro hkey
        exact ha.1 (hkey ▸ List.mem_map_of_mem key hx)
      have hcomb : (b.filter (fun x => key x != key p)).filter
            (fun x => decide (key x ∉ a'.map key)) =
          b.filter (fun x => decide (key x ∉ (p :: a').map key)) := by
        rw [List.filter_filter]
        apply List.filter_congr
        intro x _
        by_cases h1 : key x = key p
        · simp [h1]
        · by_cases h2 : key x ∈ a'.map key <;> simp [h1, h2]
      calc dedupFirstBy key ((p :: a') ++ b)
          = p :: dedupFirstBy key (a' ++ b.filter (fun x => key x != key p)) := by
            rw [List.cons_append, dedupFirstBy, hg]
        _ = p :: (a' ++ dedupFirstBy key ((b.filter (fun x => key x != key p)).filter
              (fun x => decide (key x ∉ a'.map key)))) := by
            rw [ih _ ha.2]
        _ = (p :: a') ++ dedupFirstBy key (b.filter (fun x => decide (key x ∉ (p :: a').map key))) := by
            rw [hcomb, List.cons_append]

lemma indexOf_filter_lt (p : Nat → Bool) (l : List Nat) (x y : Nat)
    (hx : x ∈ l.filter p) (hy : y ∈ l.filter p)
    (h : (l.filter p).indexOf x < (l.filter p).indexOf y) :
    l.indexOf x < l.indexOf y := by
  induction l with
  | nil => simp at hx
  | cons a t ih =>
      by_cases hpa : p a
      · rw [List.filter_cons_of_pos hpa] at hx hy h
        by_cases hxa : x = a
        · subst hxa
          rw [List.indexOf_cons_self] at h ⊢
          have hya : y ≠ x := by
            intro hcontra
            subst hcontra
            simp [List.indexOf_cons_self] at h
          rw [List.indexOf_cons_ne _ (Ne.symm hya)]
          exact Nat.succ_pos _
        · by_cases hya : y = a
          · subst hya
            rw [List.indexOf_cons_self] at h
            exact absurd h (Nat.not_lt_zero _)
          · have hx' : x ∈ t.filter p := by
              rcases List.mem_cons.1 hx with h1 | h1
              · exact absurd h1 hxa
              · exact h1
            have hy' : y ∈ t.filter p := by
              rcases List.mem_cons.1 hy with h1 | h1
              · exact absurd h1 hya
              · exact h1
            rw [List.indexOf_cons_ne _ (Ne.symm hxa), List.indexOf_cons_ne _ (Ne.symm hya)] at h ⊢
            exact Nat.succ_lt_succ (ih hx' hy' (Nat.lt_of_succ_lt_succ h))
      · rw [List.filter_cons_of_neg hpa] at hx hy h
        have hxa : x ≠ a := by
          intro hcontra
          exact hpa (hcontra ▸ List.of_mem_filter hx)
        have hya : y ≠ a := by
          intro hcontra
          exact hpa (hcontra ▸ List.of_mem_filter hy)
        rw [List.indexOf_cons_ne _ (Ne.symm hxa), List.indexOf_cons_ne _ (Ne.symm hya)]
        exact Nat.succ_lt_succ (ih hx hy h)

lemma dedupFirst_pairwise (l : List Nat) :
    (dedupFirstBy id l).Pairwise (fun x y => l.indexOf x < l.indexOf y) := by
  induction l using dedupFirstBy.induct id with
  | case1 => simp [dedupFirstBy]
  | case2 k rest ih =>
      rw [dedupFirstBy]
      refine List.Pairwise.cons ?_ ?_
      · intro y hy
        have hy' : y ∈ rest.filter (fun x => id x != id k) :=
          (dedupFirstBy_sublist id _).subset hy
        have hyk : y ≠ k := by
          have := List.of_mem_filter hy'
          simpa using this
        rw [List.indexOf_cons_self, List.indexOf_cons_ne _ (Ne.symm hyk)]
        exact Nat.succ_pos _
      · refine ih.imp_of_mem ?_
        intro x y hxm hym hlt
        have hx' : x ∈ rest.filter (fun z => id z != id k) :=
          (dedupFirstBy_sublist id _).subset hxm
        have hy' : y ∈ rest.filter (fun z => id z != id k) :=
          (dedupFirstBy_sublist id _).subset hym
        have hxk : x ≠ k := by
          have := List.of_mem_filter hx'
          simpa using this
        have hyk : y ≠ k := by
          have := List.of_mem_filter hy'
          simpa using this
        rw [List.indexOf_cons_ne _ (Ne.symm hxk), List.indexOf_cons_ne _ (Ne.symm hyk)]
        exact Nat.succ_lt_succ (indexOf_filter_lt _ rest x y hx' hy' hlt)

end DedupLemmas

/-- Modelled from the spec: `CollectKeys(keys1, keys2)` (declared at
HybridFactor.h line 65; its definition is in HybridFactor.cpp, which is not
part of the embedded files) — the ordered union of two continuous key
sequences with duplicates removed, preserving first-occurrence order from
`keys1` then `keys2`. -/
def CollectKeys (keys1 keys2 : KeyVector) : KeyVector :=
  dedupFirstBy id (keys1 ++ keys2)

/-- Modelled from the spec: the `CollectKeys(continuousKeys, discreteKeys)`
overload (declared at HybridFactor.h lines 63-64; definition in
HybridFactor.cpp, not embedded) — the continuous keys followed by the
identifiers underlying the discrete keys, deduplicated. -/
def CollectKeysCD (continuousKeys : KeyVector) (discreteKeys : DiscreteKeys) : KeyVector :=
  dedupFirstBy id (continuousKeys ++ discreteKeys.map Prod.fst)

/-- Modelled from the spec: `CollectDiscreteKeys(key1, key2)` (declared at
HybridFactor.h lines 66-67; definition in HybridFactor.cpp, not embedded) —
the ordered union of two discrete key sequences, deduplicated by
identifier, preserving first-occurrence order from `key1` then `key2`. -/
def CollectDiscreteKeys (key1 key2 : DiscreteKeys) : DiscreteKeys :=
  dedupFirstBy Prod.fst (key1 ++ key2)

/-- `HybridFactor` base-class state (HybridFactor.h lines 79-89): the keys of
the `Factor` base object, the three classification flags (in-class
initializers `= false`, lines 81-83), and the discrete and continuous key
sets. -/
structure HybridFactor where
  keys : KeyVector
  isDiscrete_ : Bool
  isContinuous_ : Bool
  isHybrid_ : Bool
  discreteKeys_ : DiscreteKeys
  continuousKeys_ : KeyVector
deriving DecidableEq

/-- The default constructor (HybridFactor.h line 102) creates an empty
factor: the member initializers leave all three flags false and both key
sets empty. -/
def HybridFactor.mkDefault : HybridFactor := ⟨[], false, false, false, [], []⟩

/-- Modelled from the spec: the `HybridFactor(continuousKeys, discreteKeys)`
constructor (declared at HybridFactor.h lines 124-125; its definition is in
HybridFactor.cpp, which is not among the embedded files) — stores both key
sets and derives the three classification flags from whether each supplied
key set is non-empty: discrete-only, continuous-only, or hybrid when both
are non-empty; the base keys are the collected keys of both sets. -/
def HybridFactor.mk2 (continuousKeys : KeyVector) (discreteKeys : DiscreteKeys) : HybridFactor :=
  ⟨CollectKeysCD continuousKeys discreteKeys,
   continuousKeys.isEmpty && !discreteKeys.isEmpty,
   !continuousKeys.isEmpty && discreteKeys.isEmpty,
   !continuousKeys.isEmpty && !discreteKeys.isEmpty,
   discreteKeys,
   continuousKeys⟩

/-- `HybridFactor::isDiscrete` (HybridFactor.h line 156). -/
def HybridFactor.isDiscrete (f : HybridFactor) : Bool := f.isDiscrete_

/-- `HybridFactor::isContinuous` (HybridFactor.h line 159). -/
def HybridFactor.isContinuous (f : HybridFactor) : Bool := f.isContinuous_

/-- `HybridFactor::isHybrid` (HybridFactor.h line 162). -/
def HybridFactor.isHybrid (f : HybridFactor) : Bool := f.isHybrid_

/-- Modelled from the spec: `HybridFactor::equals` (declared at
HybridFactor.h line 135; its definition is in HybridFactor.cpp, not among
the embedded files) — value equality on the three classification flags and
both key sets; the base class carries no numeric state, so the tolerance
argument is unused. -/
def HybridFactor.equals (f g : HybridFactor) (_tol : ℚ) : Bool :=
  decide (f.isDiscrete_ = g.isDiscrete_) && decide (f.isContinuous_ = g.isContinuous_) &&
  decide (f.isHybrid_ = g.isHybrid_) && decide (f.discreteKeys_ = g.discreteKeys_) &&
  decide (f.continuousKeys_ = g.continuousKeys_)

/-- `HybridFactor::serialize` (HybridFactor.h lines 176-186): the archive
receives the base-class object, the three classification flags, and both
key sets, in that order, and nothing else. -/
def HybridFactor.serialize (f : HybridFactor) :
    KeyVector × Bool × Bool × Bool × DiscreteKeys × KeyVector :=
  (f.keys, f.isDiscrete_, f.isContinuous_, f.isHybrid_, f.discreteKeys_, f.continuousKeys_)

/-- C1: for a `HybridFactor` built from a continuous key set and a discrete
key set, `isHybrid()` holds iff both key sets are non-empty; whenever at
least one key set is non-empty, exactly one of `isDiscrete()`,
`isContinuous()`, `isHybrid()` is true; and non-empty continuous keys with
empty discrete keys give `isContinuous()` true and the other two false. -/
theorem hybridFactor_classification (ck : KeyVector) (dk : DiscreteKeys) :
    ((HybridFactor.mk2 ck dk).isHybrid = true ↔ (ck ≠ [] ∧ dk ≠ [])) ∧
    (ck ≠ [] ∨ dk ≠ [] →
      (HybridFactor.mk2 ck dk).isDiscrete.toNat + (HybridFactor.mk2 ck dk).isContinuous.toNat +
        (HybridFactor.mk2 ck dk).isHybrid.toNat = 1) ∧
    (ck ≠ [] ∧ dk = [] →
      (HybridFactor.mk2 ck dk).isContinuous = true ∧
      (HybridFactor.mk2 ck dk).isDiscrete = false ∧
      (HybridFactor.mk2 ck dk).isHybrid = false) := by
  cases ck <;> cases dk <;>
    simp [HybridFactor.mk2, HybridFactor.isHybrid, HybridFactor.isDiscrete,
      HybridFactor.isContinuous]

/-- C6: a `HybridFactor` constructed with both key sets empty — via the
default constructor or via the two-key-set constructor with two empty
sets — has all three classification flags false. -/
theorem hybridFactor_empty_all_flags_false :
    HybridFactor.mkDefault.isDiscrete = false ∧
    HybridFactor.mkDefault.isContinuous = false ∧
    HybridFactor.mkDefault.isHybrid = false ∧
    (HybridFactor.mk2 [] []).isDiscrete = false ∧
    (HybridFactor.mk2 [] []).isContinuous = false ∧
    (HybridFactor.mk2 [] []).isHybrid = false :=
  ⟨rfl, rfl, rfl, rfl, rfl, rfl⟩

/-- C7: `HybridFactor::equals` returns true iff the three classification
flags and both key sets of the two factors are pairwise equal, and its
result does not depend on the tolerance argument. -/
theorem hybridFactor_equals_iff (f g : HybridFactor) (tol tol' : ℚ) :
    (HybridFactor.equals f g tol = true ↔
      (f.isDiscrete_ = g.isDiscrete_ ∧ f.isContinuous_ = g.isContinuous_ ∧
       f.isHybrid_ = g.isHybrid_ ∧ f.discreteKeys_ = g.discreteKeys_ ∧
       f.continuousKeys_ = g.continuousKeys_)) ∧
    HybridFactor.equals f g tol = HybridFactor.equals f g tol' :=
  ⟨by simp [HybridFactor.equals, and_assoc], rfl⟩

/-- C9: the serializable form of a `HybridFactor` is exactly its base-class
state, the three classification flags, and both key sets: the serialized
tuple lists precisely those fields, and two factors serialize identically
iff they are equal, so no field is omitted and nothing else contributes. -/
theorem hybridFactor_serialize_exact (f g : HybridFactor) :
    (HybridFactor.serialize f =
      (f.keys, f.isDiscrete_, f.isContinuous_, f.isHybrid_, f.discreteKeys_,
        f.continuousKeys_)) ∧
    (HybridFactor.serialize f = HybridFactor.serialize g ↔ f = g) := by
  refine ⟨rfl, ?_⟩
  cases f; cases g
  simp [HybridFactor.serialize, and_assoc]

/-- C2 counterexample: with empty graphs and constants 0 and 1 at tolerance
1, the graphs are structurally equal and the constants differ by exactly
the tolerance — "no more than tol" — yet `equals` returns false, because
the source compares `fabs(constant - other.constant) < tol` strictly. -/
theorem graphAndConstant_equals_at_exact_tol :
    GraphAndConstant.equals ⟨[], 0⟩ ⟨[], 1⟩ 1 = false ∧
    GaussianFactorGraph.equals [] [] 1 = true ∧
    |(0 : ℚ) - 1| ≤ 1 := by
  refine ⟨?_, rfl, by norm_num⟩
  simp [GraphAndConstant.equals]

/-- C2 (amended): `GraphAndConstant::equals` returns true iff the graphs are
equal under the graph component's tolerance-based equality and the two
constants differ by strictly less than `tol`; the default tolerance is
`1e-9`. -/
theorem graphAndConstant_equals_iff (x y : GraphAndConstant) (tol : ℚ) :
    (GraphAndConstant.equals x y tol = true ↔
      (GaussianFactorGraph.equals x.graph y.graph tol = true ∧
        |x.constant - y.constant| < tol)) ∧
    GraphAndConstant.equalsDefault x y = GraphAndConstant.equals x y (1 / 1000000000) :=
  ⟨by simp [GraphAndConstant.equals], rfl⟩

/-- C3 counterexample: `GraphAndConstant::equals` is not reflexive at zero
tolerance — for the subproblem with empty graph and constant 0,
`equals(x, x, 0)` is false, since the strict comparison `fabs(0) < 0`
fails. -/
theorem graphAndConstant_equals_not_refl_at_zero :
    GraphAndConstant.equals ⟨[], 0⟩ ⟨[], 0⟩ 0 = false := by
  simp [GraphAndConstant.equals]

/-- C3 (amended): `GraphAndConstant::equals` is reflexive at every positive
tolerance (at zero tolerance the strict constant comparison makes
`equals(x, x, 0)` false), symmetric, and tolerance-monotonic. -/
theorem graphAndConstant_equals_props (x y : GraphAndConstant) (tol tol' : ℚ)
    (hpos : 0 < tol) (hle : tol ≤ tol') :
    GraphAndConstant.equals x x tol = true ∧
    GraphAndConstant.equals x y tol = GraphAndConstant.equals y x tol ∧
    (GraphAndConstant.equals x y tol = true →
      GraphAndConstant.equals x y tol' = true) := by
  refine ⟨?_, ?_, ?_⟩
  · simp only [GraphAndConstant.equals, Bool.and_eq_true, decide_eq_true_eq]
    exact ⟨graphEquals_self _ _ (le_of_lt hpos), by simpa using hpos⟩
  · simp only [GraphAndConstant.equals, graphEquals_symm x.graph y.graph,
      abs_sub_comm x.constant y.constant]
  · intro h
    simp only [GraphAndConstant.equals, Bool.and_eq_true, decide_eq_true_eq] at h ⊢
    exact ⟨graphEquals_mono _ _ _ _ hle h.1, lt_of_lt_of_le h.2 hle⟩

/-- Witness for the amended C3: the properties instantiated at a concrete
subproblem and tolerance. -/
theorem graphAndConstant_equals_props_witness :
    GraphAndConstant.equals ⟨[⟨0, [1]⟩], 2⟩ ⟨[⟨0, [1]⟩], 2⟩ 1 = true :=
  (graphAndConstant_equals_props ⟨[⟨0, [1]⟩], 2⟩ ⟨[], 0⟩ 1 1 (by norm_num) (le_refl 1)).1

/-- C10: `GraphAndConstant::operator==` holds iff the graphs are
pointer-equal and the constants exactly equal; hence `==` implies `equals`
at any positive tolerance, but not conversely: two subproblems with
structurally equal graphs held by distinct objects are `equals` but not
`==`. -/
theorem graphAndConstant_eq_iff (x y : GraphAndConstant) (tol : ℚ) (hpos : 0 < tol) :
    (GraphAndConstant.eq x y = true ↔ (x.graph = y.graph ∧ x.constant = y.constant)) ∧
    (GraphAndConstant.eq x y = true → GraphAndConstant.equals x y tol = true) ∧
    (∃ u v : GraphAndConstant, GraphAndConstant.equals u v tol = true ∧
      GraphAndConstant.eq u v = false) := by
  refine ⟨by simp [GraphAndConstant.eq], ?_, ?_⟩
  · intro h
    simp only [GraphAndConstant.eq, Bool.and_eq_true, decide_eq_true_eq] at h
    simp only [GraphAndConstant.equals, Bool.and_eq_true, decide_eq_true_eq, h.1, h.2]
    exact ⟨graphEquals_self _ _ (le_of_lt hpos), by simpa using hpos⟩
  · refine ⟨⟨[⟨0, []⟩], 0⟩, ⟨[⟨1, []⟩], 0⟩, ?_, ?_⟩
    · simp [GraphAndConstant.equals, GaussianFactorGraph.equals, dataEquals, hpos]
    · simp [GraphAndConstant.eq]

/-- Witness for C10: the `==`-implies-`equals` direction applied at a
concrete subproblem and tolerance. -/
theorem graphAndConstant_eq_iff_witness :
    GraphAndConstant.equals ⟨[], 5⟩ ⟨[], 5⟩ 1 = true :=
  (graphAndConstant_eq_iff ⟨[], 5⟩ ⟨[], 5⟩ 1 (by norm_num)).2.1 (by decide)

/-- C4: `CollectKeys(a, b)` is the ordered union of `a` and `b`: a key is in
the result iff it is in `a` or in `b`, every such key occurs exactly once,
the result is a subsequence of `a ++ b`, and its elements are arranged by
first occurrence in `a ++ b` (elements of `a` first, then the fresh
elements of `b`). -/
theorem collectKeys_ordered_union (a b : KeyVector) :
    (∀ k : Key, k ∈ CollectKeys a b ↔ (k ∈ a ∨ k ∈ b)) ∧
    (∀ k : Key, k ∈ a ∨ k ∈ b → (CollectKeys a b).count k = 1) ∧
    (CollectKeys a b).Nodup ∧
    (CollectKeys a b).Sublist (a ++ b) ∧
    (CollectKeys a b).Pairwise (fun x y => (a ++ b).indexOf x < (a ++ b).indexOf y) := by
  have hmem : ∀ k : Key, k ∈ CollectKeys a b ↔ (k ∈ a ∨ k ∈ b) := by
    intro k
    have h := mem_map_key_dedupFirstBy id (a ++ b) k
    simpa [CollectKeys, List.mem_append] using h
  have hnd : (CollectKeys a b).Nodup := by
    have h := nodup_map_key_dedupFirstBy id (a ++ b)
    simpa [CollectKeys] using h
  exact ⟨hmem, fun k hk => List.count_eq_one_of_mem hnd ((hmem k).2 hk), hnd,
    dedupFirstBy_sublist id (a ++ b), dedupFirst_pairwise (a ++ b)⟩

/-- C5: for discrete key sets whose shared identifiers carry consistent
cardinalities, `CollectDiscreteKeys(a, b)` has no duplicate identifiers and
preserves each input's relative order: it is exactly `a` followed by those
elements of `b` whose identifier does not already occur in `a`, so `a` is a
prefix and the kept part of `b` is a subsequence of `b`. -/
theorem collectDiscreteKeys_merge (a b : DiscreteKeys)
    (ha : (a.map Prod.fst).Nodup) (hb : (b.map Prod.fst).Nodup)
    (_hc : ∀ p ∈ a, ∀ q ∈ b, p.1 = q.1 → p.2 = q.2) :
    ((CollectDiscreteKeys a b).map Prod.fst).Nodup ∧
    CollectDiscreteKeys a b =
      a ++ b.filter (fun q => decide (q.1 ∉ a.map Prod.fst)) ∧
    a <+: CollectDiscreteKeys a b ∧
    (b.filter (fun q => decide (q.1 ∉ a.map Prod.fst))).Sublist b := by
  have hsplit := dedupFirstBy_append Prod.fst a b ha
  have hbf : ((b.filter (fun q => decide (q.1 ∉ a.map Prod.fst))).map Prod.fst).Nodup :=
    List.Nodup.sublist (List.Sublist.map Prod.fst (List.filter_sublist b)) hb
  have hform : CollectDiscreteKeys a b =
      a ++ b.filter (fun q => decide (q.1 ∉ a.map Prod.fst)) := by
    rw [CollectDiscreteKeys, hsplit, dedupFirstBy_eq_self Prod.fst _ hbf]
  refine ⟨nodup_map_key_dedupFirstBy Prod.fst (a ++ b), hform, ?_, List.filter_sublist b⟩
  rw [hform]
  exact List.prefix_append a _

/-- Witness for C5: the merge instantiated at concrete consistent key
sets. -/
theorem collectDiscreteKeys_merge_witness :
    ((CollectDiscreteKeys [(1, 2)] [(3, 4), (1, 2)]).map Prod.fst).Nodup :=
  (collectDiscreteKeys_merge [(1, 2)] [(3, 4), (1, 2)] (by decide) (by decide)
    (by decide)).1

end GtsamHybrid
